import Mathlib

/-!
Verification of the libfive dual-contouring meshing core against its
natural-language specification.

Shallow embedding of the relevant C++ sources:
* `src/libfive/src/render/brep/dc/dc_tree3.cpp`
  (`DCTree<3>::cornersAreManifold`, `DCTree<3>::leafsAreManifold`)
* `src/libfive/include/libfive/render/brep/dc/intersection.hpp`
  (`Intersection::push`, `Intersection::get_rank`)
* `src/libfive/src/render/brep/dc/dc_mesher.cpp` (`DCMesher::load`)
* `src/libfive/include/libfive/render/brep/per_thread_brep.hpp`
  (`PerThreadBRep::pushVertex`)
* `src/libfive/include/libfive/render/brep/brep.hpp` (`BRep::collect`)
* `src/libfive/src/render/brep/worker_pool.inl` (`WorkerPool::build`)
* `src/libfive/src/render/brep/mesh.cpp` (`Mesh::render`)

Machine floating-point values are modelled as real numbers (for the QEF
accumulators, whose arithmetic the claims treat algebraically) or as
rationals where the claims are about counting; machine integers are
modelled as `Nat` (all the quantities involved are far below any
overflow boundary and the claims are about small values).  Concurrency
is modelled by sequential interleavings: atomics are explicit state
threaded through event lists.
-/

namespace Libfive

/-- `Interval::State` from `libfive/eval/interval.hpp`: the result of
interval evaluation of the implicit function over a region. -/
inductive IState where
  | EMPTY | FILLED | AMBIGUOUS | UNKNOWN
deriving DecidableEq, Repr

/-! ### `DCTree<3>::cornersAreManifold` (dc_tree3.cpp, lines 123-166)

The source stores a static 256-entry `corner_table`, together with (in a
comment) the Python generator that produced it: iteratively contract
cube edges whose endpoints carry the same sign, and accept the mask iff
at most one distinct edge remains. -/

/-- The 12 cube edges used by the table generator in the source comment:
`edges = [(0,1), (0,2), (2,3), (1,3), (4,5), (4,6), (6,7), (5,7),
(0,4), (2,6), (1,5), (3,7)]`. -/
def genEdges : List (Nat × Nat) :=
  [(0,1), (0,2), (2,3), (1,3),
   (4,5), (4,6), (6,7), (5,7),
   (0,4), (2,6), (1,5), (3,7)]

/-- `merge(a, b)` from the generator: rename endpoint `a` to `b` in every
edge and drop the edges that became self-loops. -/
def mergeEdges (a b : Nat) (edges : List (Nat × Nat)) : List (Nat × Nat) :=
  (edges.map (fun e =>
    ((if e.1 = a then b else e.1), (if e.2 = a then b else e.2)))).filter
    (fun e => e.1 ≠ e.2)

/-- The generator's main loop: find the first edge whose endpoints have
the same sign under `f`, contract it, and repeat until no such edge is
left.  Each contraction removes at least the contracted edge itself, so
a fuel of `edges.length` suffices; the loop is fuelled to keep it a
plain structural recursion. -/
def edgeMergeLoop (f : Nat → Bool) : Nat → List (Nat × Nat) → List (Nat × Nat)
  | 0, edges => edges
  | fuel + 1, edges =>
    match edges.find? (fun e => f e.1 == f e.2) with
    | none => edges
    | some e => edgeMergeLoop f fuel (mergeEdges e.1 e.2 edges)

/-- `safe(index)` from the generator comment: run the edge-merge loop on
the cube graph with signs taken from the bits of `index`, then count the
distinct undirected edges that remain. -/
def edgeMergeSafe (index : Nat) : Bool :=
  let f := fun i => index.testBit i
  let edges := edgeMergeLoop f genEdges.length genEdges
  let s := (edges.map (fun e =>
    if e.1 ≤ e.2 then e else (e.2, e.1))).dedup
  s.length ≤ 1

/-- The static 256-entry `corner_table` from
`DCTree<3>::cornersAreManifold`, transcribed verbatim. -/
def corner_table : List Bool :=
  [true, true, true, true, true, true, false, true, true, false, true, true, true, true, true, true, true, true, false, true, false, true, false, true, false, false, false, true, false, true, false, true,
   true, false, true, true, false, false, false, true, false, false, true, true, false, false, true, true, true, true, true, true, false, true, false, true, false, false, true, true, false, false, false, true,
   true, false, false, false, true, true, false, true, false, false, false, false, true, true, true, true, true, true, false, true, true, true, false, true, false, false, false, false, true, true, false, true,
   false, false, false, false, false, false, false, false, false, false, false, false, false, false, false, false, true, true, true, true, true, true, false, true, false, false, false, false, false, false, false, true,
   true, false, false, false, false, false, false, false, true, false, true, true, true, true, true, true, false, false, false, false, false, false, false, false, false, false, false, false, false, false, false, false,
   true, false, true, true, false, false, false, false, true, false, true, true, true, false, true, true, true, true, true, true, false, false, false, false, true, false, true, true, false, false, false, true,
   true, false, false, false, true, true, false, false, true, false, true, false, true, true, true, true, true, true, false, false, true, true, false, false, true, false, false, false, true, true, false, true,
   true, false, true, false, true, false, false, false, true, false, true, false, true, false, true, true, true, true, true, true, true, true, false, true, true, false, true, true, true, true, true, true]

/-- `DCTree<3>::cornersAreManifold(corner_mask)`: a table lookup. -/
def cornersAreManifold (corner_mask : Fin 256) : Bool :=
  corner_table.getD corner_mask false

/-! ### `WorkerPool::build` progress ticks (worker_pool.inl, lines 73-79)

```
uint64_t ticks = 0;
for (int i=0; i < region.level; ++i) {
    ticks = (ticks + 1) * (1 << N);
}
settings.progress_handler->nextPhase(ticks + 1);
```
-/

/-- The `ticks` accumulator of the loop above after `level` iterations,
for an `N`-dimensional build. -/
def buildTicks (N : Nat) : Nat → Nat
  | 0 => 0
  | level + 1 => (buildTicks N level + 1) * 2 ^ N

/-- The argument that `WorkerPool::build` passes to
`progress_handler->nextPhase` at the start of the build phase. -/
def nextPhaseEstimate (N level : Nat) : Nat :=
  buildTicks N level + 1

/-! ### `Intersection<N>::get_rank` (intersection.hpp, lines 69-90)

The eigendecomposition itself is performed by Eigen's
`SelfAdjointEigenSolver`; it is modelled abstractly by the list of
eigenvalues of `AtA` that it returns.  What the source then computes
from that list (in the default `!LIBFIVE_UNNORMALIZED_DERIVS`
configuration, where `cutoff = EIGENVALUE_CUTOFF`) is

```
rank = 0;
for (unsigned j=0; j < N; ++j) {
    rank += (fabs(eigenvalues[j]) < cutoff);
}
```
-/

/-- `Intersection::get_rank` on a freshly computed eigendecomposition:
the count accumulated by the loop above over the eigenvalues of `AtA`. -/
def get_rank (eigenvalues : List ℚ) (cutoff : ℚ) : Nat :=
  eigenvalues.countP (fun lam => |lam| < cutoff)

/-- Modelled from the spec: the pseudo-rank of `AtA`, "the number of
retained eigenvalues", i.e. the count of eigenvalues whose magnitude is
at least the `EIGENVALUE_CUTOFF` threshold. -/
def specPseudoRank (eigenvalues : List ℚ) (cutoff : ℚ) : Nat :=
  eigenvalues.countP (fun lam => cutoff ≤ |lam|)

/-! ### `Intersection<N>::push` (intersection.hpp, lines 33-60)

The accumulator state of an `Intersection<N>`; `mass_point` is split
into its first `N` coordinates and its final weight slot.  `rank` is the
cached `int8_t` rank, `-1` when invalidated. -/

structure Intersection (K : Type) (N : Nat) where
  mass_point_pos : Fin N → K
  mass_point_w : K
  AtA : Fin N → Fin N → K
  AtB : Fin N → K
  BtB : K
  rank : ℤ

/-- A freshly constructed `Intersection`: the constructor calls
`reset()`, which zeroes all accumulators; the cached rank starts at its
member initializer `-1`.  The scalar type `K` models the machine `double`
as an ordered field equipped with a square-root function `sqrt` (passed
to `push` below); instantiating `K` with an executable field such as `ℚ`
keeps the model evaluable. -/
def Intersection.init (K : Type) [LinearOrderedField K] (N : Nat) :
    Intersection K N :=
  { mass_point_pos := fun _ => 0
    mass_point_w := 0
    AtA := fun _ _ => 0
    AtB := fun _ => 0
    BtB := 0
    rank := -1 }

/-- Eigen's `deriv.matrix().norm()`: the Euclidean norm of the gradient,
with the machine square root abstracted as `sqrt`. -/
def derivNorm {K : Type} [LinearOrderedField K] (sqrt : K → K) {N : Nat}
    (deriv : Fin N → K) : K :=
  sqrt (∑ i, deriv i ^ 2)

/-- `Intersection<N>::push(pos, deriv, value)` in the default
`!LIBFIVE_UNNORMALIZED_DERIVS` configuration.  The source first adds
`(pos, 1)` to `mass_point`, then normalizes the gradient and returns
early — leaving `AtA`, `AtB`, `BtB` and the cached rank untouched — when
`norm <= 1e-12` or the normalized gradient is non-finite.  In the exact
ordered-field model the IEEE non-finite escape cannot fire (it exists to
catch overflow of `deriv / norm` for denormal `norm`), so the guard is
the norm test alone. -/
def Intersection.push {K : Type} [LinearOrderedField K] (sqrt : K → K)
    {N : Nat} (s : Intersection K N)
    (pos deriv : Fin N → K) (value : K) : Intersection K N :=
  let mass_point_pos := fun i => s.mass_point_pos i + pos i
  let mass_point_w := s.mass_point_w + 1
  let norm := derivNorm sqrt deriv
  let deriv' := fun i => deriv i / norm
  let value' := value / norm
  if norm ≤ 1e-12 then
    { s with mass_point_pos := mass_point_pos, mass_point_w := mass_point_w }
  else
    let b := (∑ i, deriv' i * pos i) - value'
    { mass_point_pos := mass_point_pos
      mass_point_w := mass_point_w
      AtA := fun i j => s.AtA i j + deriv' i * deriv' j
      AtB := fun i => s.AtB i + deriv' i * b
      BtB := s.BtB + b * b
      rank := -1 }

/-! ### `DCTree<3>::leafsAreManifold` (dc_tree3.cpp, lines 21-114)

The function reads, for each of the eight child cells `cs[i]`, the
child's `cornerState` at selected corners, and compares against the
coarse corner-sign array `corners`.  A child cell is modelled by its
`cornerState` function; corner indices are the usual bitmask corners
with `Axis::X = 1`, `Axis::Y = 2`, `Axis::Z = 4` (libfive's `Axis`
bitmask values, declared in `libfive/render/axes.hpp`). -/

/-- The `edges_safe` local of `DCTree<3>::leafsAreManifold`, transcribed
with numeric corner masks (`X = 1`, `Y = 2`, `Z = 4`); `cs i k` is
`cs[i]->cornerState(k)`. -/
def edges_safe (cs : Nat → Nat → IState) (corners : Nat → IState) : Bool :=
  (cs 0 4 == corners 0 || cs 0 4 == corners 4)
  && (cs 0 1 == corners 0 || cs 0 1 == corners 1)
  && (cs 0 2 == corners 0 || cs 0 2 == corners 2)
  && (cs 1 3 == corners 1 || cs 1 3 == corners 3)
  && (cs 1 5 == corners 1 || cs 1 5 == corners 5)
  && (cs 2 3 == corners 2 || cs 2 3 == corners 3)
  && (cs 2 6 == corners 2 || cs 2 6 == corners 6)
  && (cs 3 7 == corners 3 || cs 3 7 == corners 7)
  && (cs 4 5 == corners 4 || cs 4 5 == corners 5)
  && (cs 4 6 == corners 4 || cs 4 6 == corners 6)
  && (cs 5 7 == corners 5 || cs 5 7 == corners 7)
  && (cs 6 7 == corners 6 || cs 6 7 == corners 7)

/-- The `faces_safe` local of `DCTree<3>::leafsAreManifold`. -/
def faces_safe (cs : Nat → Nat → IState) (corners : Nat → IState) : Bool :=
  (cs 0 5 == corners 0 || cs 0 5 == corners 1
    || cs 0 5 == corners 4 || cs 0 5 == corners 5)
  && (cs 0 6 == corners 0 || cs 0 6 == corners 2
    || cs 0 6 == corners 4 || cs 0 6 == corners 6)
  && (cs 0 3 == corners 0 || cs 0 3 == corners 2
    || cs 0 3 == corners 1 || cs 0 3 == corners 3)
  && (cs 7 1 == corners 1 || cs 7 1 == corners 5
    || cs 7 1 == corners 3 || cs 7 1 == corners 7)
  && (cs 7 2 == corners 2 || cs 7 2 == corners 6
    || cs 7 2 == corners 3 || cs 7 2 == corners 7)
  && (cs 7 4 == corners 4 || cs 7 4 == corners 6
    || cs 7 4 == corners 5 || cs 7 4 == corners 7)

/-- The `center_safe` local of `DCTree<3>::leafsAreManifold`. -/
def center_safe (cs : Nat → Nat → IState) (corners : Nat → IState) : Bool :=
  cs 0 7 == corners 0 || cs 0 7 == corners 1
  || cs 0 7 == corners 2 || cs 0 7 == corners 3
  || cs 0 7 == corners 4 || cs 0 7 == corners 5
  || cs 0 7 == corners 6 || cs 0 7 == corners 7

/-- `DCTree<3>::leafsAreManifold(cs, corners)`:
`return edges_safe && faces_safe && center_safe`. -/
def leafsAreManifold (cs : Nat → Nat → IState) (corners : Nat → IState) : Bool :=
  edges_safe cs corners && faces_safe cs corners && center_safe cs corners

/-- The 12 edges of the cube on corners `0..7`, as ordered pairs
`(a, b)` with `a < b` differing in exactly one axis bit.  The midpoint
of coarse edge `(a, b)` sits at child `a`'s corner `b` (child `a`
occupies the octant at corner `a`; its corner `b` is halfway towards
`b`), which is the representative the source reads. -/
def cubeEdgeList : List (Nat × Nat) :=
  ((List.range 8).product (List.range 8)).filter
    (fun e => e.1 < e.2 && (e.1 ^^^ e.2 == 1 || e.1 ^^^ e.2 == 2 || e.1 ^^^ e.2 == 4))

/-- The 6 faces of the cube, each named by the anchored diagonal the
source reads: `(p, q)` with `p` the anchor corner (`0` for the three
faces through corner `0`, `7` for the three through corner `7`) and `q`
the corner of the face diagonally opposite `p`.  The face midpoint sits
at child `p`'s corner `q`. -/
def cubeFaceList : List (Nat × Nat) :=
  ((List.range 8).product (List.range 8)).filter
    (fun e => (e.1 == 0 || e.1 == 7)
      && (e.1 ^^^ e.2 == 3 || e.1 ^^^ e.2 == 5 || e.1 ^^^ e.2 == 6))

/-- The four corners of the face with anchored diagonal `(p, q)`: the
corners that agree with `p` on the axis held fixed by the face (the axis
bit not varying between `p` and `q`). -/
def faceCornerList (p q : Nat) : List Nat :=
  (List.range 8).filter
    (fun c => c &&& (7 ^^^ (p ^^^ q)) == p &&& (7 ^^^ (p ^^^ q)))

/-- The Ju et al. edge condition: for each of the 12 coarse edges, the
sign at the edge midpoint equals the sign at one of its two endpoints. -/
def juEdgesSafe (cs : Nat → Nat → IState) (corners : Nat → IState) : Prop :=
  ∀ e ∈ cubeEdgeList, cs e.1 e.2 = corners e.1 ∨ cs e.1 e.2 = corners e.2

/-- The Ju et al. face condition: for each of the 6 coarse faces, the
sign at the face midpoint equals the sign at one of its four corners. -/
def juFacesSafe (cs : Nat → Nat → IState) (corners : Nat → IState) : Prop :=
  ∀ e ∈ cubeFaceList, ∃ c ∈ faceCornerList e.1 e.2, cs e.1 e.2 = corners c

/-- The Ju et al. centre condition: the sign at the cube centre (child
`0`'s corner `7`) equals the sign at one of the cube's eight corners. -/
def juCenterSafe (cs : Nat → Nat → IState) (corners : Nat → IState) : Prop :=
  ∃ c ∈ List.range 8, cs 0 7 = corners c

/-! ### `DCMesher::load<A>` (dc_mesher.cpp, lines 24-80)

The cells handed to the mesher are modelled by the data `load<A>` reads:
the cell's interval type, its `leaf->level`, and its corner-state
lookup.  (`leaf` is non-null whenever `type == AMBIGUOUS`; the source
asserts this before dereferencing.) -/

structure DCCell where
  type : IState
  level : Nat
  cornerState : Nat → IState

/-- libfive's `Axis::Axis` (a bitmask enum: `X = 1`, `Y = 2`, `Z = 4`). -/
inductive Axis3 where
  | X | Y | Z
deriving DecidableEq, Repr

/-- The bitmask value of an axis. -/
def Axis3.mask : Axis3 → Nat
  | .X => 1
  | .Y => 2
  | .Z => 4

/-- Modelled from the spec: `Axis::Q(A)` from `libfive/render/axes.hpp`
(the header is not part of the source slice); per spec §4.7, `Q`, `R`
are "the other two axes", taken cyclically. -/
def Axis3.Q : Axis3 → Axis3
  | .X => .Y
  | .Y => .Z
  | .Z => .X

/-- Modelled from the spec: `Axis::R(A)`, the remaining third axis. -/
def Axis3.R : Axis3 → Axis3
  | .X => .Z
  | .Y => .X
  | .Z => .Y

/-- `std::min_element` over the four cells compared by `leaf->level`
with `operator<`: the index of the *first* cell achieving the minimum
level. -/
def minLevelIndex (ts : Fin 4 → DCCell) : Fin 4 :=
  [1, 2, 3].foldl
    (fun best i => if (ts i).level < (ts best).level then i else best)
    (0 : Fin 4)

/-- The `corners` array of `load<A>`:
`constexpr std::array<uint8_t, 4> corners = {{Q|R, R, Q, 0}}`. -/
def loadCorners (A : Axis3) : Fin 4 → Nat :=
  ![A.Q.mask ||| A.R.mask, A.R.mask, A.Q.mask, 0]

/-- `DCMesher::load<A>(ts)` acting on a per-thread BRep state `m` of
abstract type `σ`.  All writes to the BRep happen inside the polarity
helper `load<A, D>` (here the parameter `loadAD`, with `D` its first
argument); `load<A>` itself only selects the polarity or returns early:
if some cell is not `AMBIGUOUS`, or the authoritative edge of the
first-minimal-level cell has no sign change, the BRep is returned
untouched. -/
def loadA {σ : Type} (A : Axis3)
    (loadAD : Bool → (Fin 4 → DCCell) → σ → σ)
    (ts : Fin 4 → DCCell) (m : σ) : σ :=
  if (List.finRange 4).any (fun i => (ts i).type != IState.AMBIGUOUS) then
    m
  else
    let index := minLevelIndex ts
    let a := (ts index).cornerState (loadCorners A index)
    let b := (ts index).cornerState (loadCorners A index ||| A.mask)
    if a != b then
      if a != IState.FILLED then loadAD false ts m else loadAD true ts m
    else
      m

/-! ### `PerThreadBRep<3>` and the shared atomic counter
(per_thread_brep.hpp, lines 26-65)

Vertices (`Eigen::Matrix<float, 3, 1>`) are modelled as rational
triples; triangles (`Eigen::Matrix<uint32_t, 3, 1>`) as natural-number
triples. -/

/-- A 3-float vertex. -/
def Vec3 : Type := ℚ × ℚ × ℚ

instance : DecidableEq Vec3 := instDecidableEqProd

/-- The zero vertex (the sentinel stored at slot `0`). -/
def Vec3.zero : Vec3 := (0, 0, 0)

/-- The fields of a `PerThreadBRep<3>` (minus the borrowed counter
reference, which lives in the interleaving state below): local vertices,
local triangles, and the global indices assigned to the local
vertices. -/
structure PTBrep where
  verts : List Vec3
  branes : List (Nat × Nat × Nat)
  indices : List Nat
deriving DecidableEq

/-- A freshly constructed `PerThreadBRep`: all vectors empty. -/
def PTBrep.init : PTBrep := ⟨[], [], []⟩

/-- The shared state of one meshing pass with `T` worker threads: the
single atomic counter (constructed as `global_index(1)` in
`Dual::walk_`), the `T` per-thread breps borrowing it, and the
`leaf->index[vi]` slots of all leaves (an abstract slot id maps to its
stored index, `0` meaning "not yet assigned"). -/
structure MeshState (T : Nat) where
  counter : Nat
  breps : Fin T → PTBrep
  memo : Nat → Nat

/-- The state at the start of a meshing pass: counter at `1` (slot `0`
reserved as a null marker), breps empty, every `leaf->index` slot `0`. -/
def MeshState.init (T : Nat) : MeshState T :=
  ⟨1, fun _ => PTBrep.init, fun _ => 0⟩

/-- `PerThreadBRep::pushVertex(v)` executed by thread `t`: the atomic
`c.fetch_add(1)` returns the old counter value, which is appended to
`indices` while `v` is appended to `verts`; the pair is (returned index,
new state). -/
def PTBrep.pushed (p : PTBrep) (v : Vec3) (i : Nat) : PTBrep :=
  { p with verts := p.verts ++ [v], indices := p.indices ++ [i] }

def pushVertex {T : Nat} (t : Fin T) (v : Vec3) (s : MeshState T) :
    Nat × MeshState T :=
  (s.counter,
   { s with
      counter := s.counter + 1
      breps := Function.update s.breps t ((s.breps t).pushed v s.counter) })

/-- A sequential interleaving of `pushVertex` calls: each event names
the thread whose brep receives the vertex.  Returns the final state and
the list of indices returned by the calls, in call order. -/
def runPushes {T : Nat} : List (Fin T × Vec3) → MeshState T →
    MeshState T × List Nat
  | [], s => (s, [])
  | (t, v) :: rest, s =>
    let p := pushVertex t v s
    let q := runPushes rest p.2
    (q.1, p.1 :: q.2)

/-- The global positions (counting from `c`) and payloads of the events
of thread `t` in a trace: the indices the shared counter hands to `t`'s
`pushVertex` calls, paired with the vertices pushed. -/
def threadContrib {T : Nat} (t : Fin T) : Nat → List (Fin T × Vec3) →
    List Nat × List Vec3
  | _, [] => ([], [])
  | c, (u, v) :: rest =>
    let p := threadContrib t (c + 1) rest
    if u = t then (c :: p.1, v :: p.2) else p

/-! ### The DC meshing pipeline writes (dc_mesher.cpp, lines 93-192)

`DCMesher::load<A, D>` is the only writer of the per-thread BRep in the
dual-contouring pipeline.  Its geometric inputs are abstracted: the four
cells' chosen vertex slots (`&ts[i]->leaf->index[vi]`, an abstract slot
id), their vertex positions, the polarity `D`, and the boolean outcome
of the fold-prevention normal comparison
`norms[0].dot(norms[3]) > norms[1].dot(norms[2])`. -/

/-- `if (ts[i]->leaf->index[vi] == 0) index[vi] = m.pushVertex(vert)`:
assign a fresh global index to the slot on first use. -/
def ensureIndex {T : Nat} (t : Fin T) (slot : Nat) (v : Vec3)
    (s : MeshState T) : MeshState T :=
  if s.memo slot = 0 then
    let p := pushVertex t v s
    { p.2 with memo := Function.update p.2.memo slot p.1 }
  else s

def PTBrep.brane (p : PTBrep) (tri : Nat × Nat × Nat) : PTBrep :=
  { p with branes := p.branes ++ [tri] }

/-- `push_triangle(a, b, c)`: append the triangle to thread `t`'s
`branes` unless two of its indices coincide (degenerate). -/
def pushTriangle {T : Nat} (t : Fin T) (a b c : Nat) (s : MeshState T) :
    MeshState T :=
  if a ≠ b ∧ b ≠ c ∧ a ≠ c then
    { s with breps := Function.update s.breps t ((s.breps t).brane (a, b, c)) }
  else s

/-- One `DCMesher::load<A, D>` call by thread `t`: ensure all four cells
have indexed vertices (`vs[i] = ts[i]->leaf->index[vi]`), swap `vs[1]`
and `vs[2]` when `D` is false (winding polarity), then emit the two
triangles of the diagonal chosen by the normal test `diag`. -/
def loadADStep {T : Nat} (t : Fin T) (slots : Fin 4 → Nat)
    (vsIn : Fin 4 → Vec3) (D diag : Bool) (s : MeshState T) : MeshState T :=
  let s0 := ensureIndex t (slots 0) (vsIn 0) s
  let v0 := s0.memo (slots 0)
  let s1 := ensureIndex t (slots 1) (vsIn 1) s0
  let v1 := s1.memo (slots 1)
  let s2 := ensureIndex t (slots 2) (vsIn 2) s1
  let v2 := s2.memo (slots 2)
  let s3 := ensureIndex t (slots 3) (vsIn 3) s2
  let v3 := s3.memo (slots 3)
  let w1 := if D then v1 else v2
  let w2 := if D then v2 else v1
  if diag then
    pushTriangle t w2 w1 v3 (pushTriangle t v0 w1 w2 s3)
  else
    pushTriangle t v0 v3 w2 (pushTriangle t v0 w1 v3 s3)

/-- One abstracted `DCMesher::load<A, D>` event of a meshing pass. -/
structure DCEvent (T : Nat) where
  t : Fin T
  slots : Fin 4 → Nat
  vsIn : Fin 4 → Vec3
  D : Bool
  diag : Bool

/-- A sequential interleaving of the pipeline's `load<A, D>` calls. -/
def runDC {T : Nat} (trace : List (DCEvent T)) (s : MeshState T) :
    MeshState T :=
  trace.foldl (fun s e => loadADStep e.t e.slots e.vsIn e.D e.diag s) s

/-- The total number of vertices across the per-thread breps. -/
def sumVerts {T : Nat} (s : MeshState T) : Nat :=
  ∑ t, (s.breps t).verts.length

/-- Validity of a triangle's three indices below the bound `n`. -/
def triOK (tri : Nat × Nat × Nat) (n : Nat) : Prop :=
  (1 ≤ tri.1 ∧ tri.1 < n) ∧ (1 ≤ tri.2.1 ∧ tri.2.1 < n) ∧
    (1 ≤ tri.2.2 ∧ tri.2.2 < n)

/-- The meshing-pass invariant: the shared counter exceeds the total
vertex count by exactly one (it started at `1` and each `pushVertex`
adds one vertex); every assigned `leaf->index` slot holds an
already-issued index; and every stored triangle refers to
already-issued indices. -/
def MInv {T : Nat} (s : MeshState T) : Prop :=
  s.counter = 1 + sumVerts s ∧
  (∀ slot, s.memo slot = 0 ∨
    (1 ≤ s.memo slot ∧ s.memo slot < s.counter)) ∧
  (∀ t, ∀ tri ∈ (s.breps t).branes, triOK tri s.counter)

/-! ### `BRep<3>::collect` (brep.hpp, lines 63-119) -/

/-- `1 + Σ|verts_i|`: the `num_verts` computed by `collect`. -/
def totalVerts (children : List PTBrep) : Nat :=
  (children.map (fun c => c.verts.length)).sum

/-- `Σ|branes_i|`: the `num_branes` computed by `collect`. -/
def totalBranes (children : List PTBrep) : Nat :=
  (children.map (fun c => c.branes.length)).sum

/-- The scatter loop
`for k: verts.at(c.indices.at(k)) = c.verts.at(k)` for one child,
expressed over the index/vertex pairs. -/
def scatterPairs (acc : List Vec3) (ps : List (Nat × Vec3)) : List Vec3 :=
  ps.foldl (fun a p => a.set p.1 p.2) acc

/-- The index/vertex pairs of one child, in loop order. -/
def childPairs (c : PTBrep) : List (Nat × Vec3) :=
  c.indices.zip c.verts

/-- The `verts` array after `collect`: the constructor's
`verts.push_back(Zero)` followed by `verts.resize(num_verts)` yields a
buffer whose slot `0` holds the zero sentinel (the remaining slots are
default-constructed Eigen storage, modelled as zero; under `collect`'s
documented precondition every such slot is overwritten), into which each
child's vertices are scattered at their global indices. -/
def collectVerts (children : List PTBrep) : List Vec3 :=
  children.foldl (fun acc c => scatterPairs acc (childPairs c))
    (List.replicate (1 + totalVerts children) Vec3.zero)

/-- Writing the list `l` into `acc` at consecutive positions starting at
`off`: the inner loop `branes[offset + k] = c.branes[k]`. -/
def writeSlice {α : Type} : List α → Nat → List α → List α
  | acc, _, [] => acc
  | acc, off, x :: xs => writeSlice (acc.set off x) (off + 1) xs

/-- The per-child brane writes of `collect`: child `j`'s triangles go at
offset `Σ_{k<j}|branes_k|` (the source recomputes this prefix sum per
child; the running offset here takes the same values). -/
def scatterFrom {α : Type} : List α → Nat → List (List α) → List α
  | acc, _, [] => acc
  | acc, off, l :: rest => scatterFrom (writeSlice acc off l) (off + l.length) rest

/-- The `branes` array after `collect`. -/
def collectBranes (children : List PTBrep) : List (Nat × Nat × Nat) :=
  scatterFrom (List.replicate (totalBranes children) (0, 0, 0)) 0
    (children.map (fun c => c.branes))

/-- The destination `BRep<3>` (a `Mesh`): vertex and triangle arrays. -/
structure BRep3 where
  verts : List Vec3
  branes : List (Nat × Nat × Nat)

/-- `BRep<3>::collect(children)` on a freshly-constructed `BRep`.  The
source performs the child writes from `workers` async tasks over
disjoint children with disjoint destinations; the model performs the
same writes in child order. -/
def collect (children : List PTBrep) : BRep3 :=
  ⟨collectVerts children, collectBranes children⟩

/-! ### `WorkerPool::build` / `Mesh::render` cancellation and progress
(worker_pool.inl lines 102-111, mesh.cpp lines 56-145)

Sequential control-flow model: the atomic `cancel` flag is modelled by
the value observed at the checks, and the `Root<T>` handed from `build`
to `render` by an `Option` (`none` for an empty root wrapping a null
tree, which is what `Root<T>()` default-constructs). -/

/-- The tail of `WorkerPool::build` after all worker futures are joined:
`if (settings.cancel.load()) return Root<T>(); else return out;`. -/
def workerPoolBuildResult {α : Type} (cancel : Bool) (out : α) : Option α :=
  if cancel then none else some out

/-- `settings.alg`. -/
inductive Alg where
  | DUAL_CONTOURING | ISO_SIMPLEX | HYBRID
deriving DecidableEq

/-- `Mesh::render(es, r, settings)` control flow for output type `M`.
`hasHandler` is `settings.progress_handler != nullptr`; `cancel` the
value of `settings.cancel.load()` at the post-build check; `root` the
tree returned by the worker-pool build (`none` for a null root);
`walkOut` the mesh produced by `Dual<3>::walk`.  The result pairs the
returned mesh (`none` = `nullptr`) with the number of times
`progress_handler->finish()` ran. -/
def meshRender {Tree M : Type} (alg : Alg) (hasHandler cancel : Bool)
    (root : Option Tree) (walkOut : M) : Option M × Nat :=
  match alg with
  | .DUAL_CONTOURING =>
    if cancel || root.isNone then
      (none, if hasHandler then 1 else 0)
    else
      (some walkOut, if hasHandler then 1 else 0)
  | .ISO_SIMPLEX =>
    if cancel || root.isNone then
      (none, if hasHandler then 1 else 0)
    else
      (some walkOut, if hasHandler then 1 else 0)
  | .HYBRID =>
    if cancel || root.isNone then
      (none, if hasHandler then 1 else 0)
    else
      (some walkOut, if hasHandler then 1 else 0)

end Libfive

namespace Libfive

/-! ## Theorems -/

set_option maxRecDepth 10000

/-- C2: for every corner mask `m` in `[0, 256)`,
`DCTree<3>::cornersAreManifold(m)` returns true if and only if the
edge-merge procedure on the cube graph (contract cube edges whose two
endpoints have the same sign under `m` until no such edge remains, as in
the generator recorded in the source) leaves at most one distinct edge:
the static 256-entry `corner_table` coincides with the reference
edge-merge definition. -/
theorem cornersAreManifold_eq_edgeMergeSafe :
    ∀ m : Fin 256, cornersAreManifold m = edgeMergeSafe m.val := by
  decide

/-- C9 counterexample: at subdivision level `L = 1` of a 3-dimensional
build, the estimate handed to `nextPhase` is `9`, not `(2^3)^1 = 8`. -/
theorem nextPhaseEstimate_ne_maximal_depth_count :
    nextPhaseEstimate 3 1 ≠ (2 ^ 3) ^ 1 := by
  decide

/-- C9 amended: the estimated tick count given to the progress handler's
`nextPhase` at the start of the build phase equals the would-be count of
cells of the fully subdivided tree over *all* levels `0..L`, i.e. the
geometric series `∑_{i≤L} (2^N)^i`, for an `N`-dimensional build at
subdivision level `L`. -/
theorem nextPhaseEstimate_eq_total_cells (N L : ℕ) :
    nextPhaseEstimate N L = ∑ i in Finset.range (L + 1), (2 ^ N) ^ i := by
  induction L with
  | zero => simp [nextPhaseEstimate, buildTicks]
  | succ L ih =>
    have h : nextPhaseEstimate N (L + 1)
        = nextPhaseEstimate N L * 2 ^ N + 1 := rfl
    rw [h, ih, Finset.sum_range_succ' (fun i => (2 ^ N) ^ i) (L + 1)]
    simp [pow_succ, Finset.sum_mul]

/-- C4: evaluation of `Intersection::get_rank`'s counting loop at the
eigenvalue list `[1, 1, 1]` (the `AtA` of a corner feature, all three
eigenvalues retained) with cutoff `1/10`: the code returns `0`, while
the pseudo-rank of `AtA` (the number of retained eigenvalues, per the
spec) is `3`.  The loop counts the eigenvalues *below* the cutoff — the
discarded ones — so it returns `N` minus the pseudo-rank. -/
theorem get_rank_counts_discarded_eigenvalues :
    get_rank [1, 1, 1] (1 / 10) = 0 ∧ specPseudoRank [1, 1, 1] (1 / 10) = 3 := by
  constructor <;> norm_num [get_rank, specPseudoRank, List.countP_cons]

end Libfive

namespace Libfive

/-- Commuting the two middle limbs of a four-way disjunction (used to
align the source's face-corner comparison order with ascending corner
order). -/
theorem or4_swap23 {a b c d : Prop} (h : a ∨ b ∨ c ∨ d) : a ∨ c ∨ b ∨ d :=
  h.imp id (fun h1 => h1.elim (fun hb => Or.inr (Or.inl hb))
    (fun h2 => h2.elim Or.inl (fun hd => Or.inr (Or.inr hd))))

/-- The source's `edges_safe` conjunction enumerates exactly the Ju et
al. edge condition over the 12 cube edges. -/
theorem edges_safe_iff (cs : Nat → Nat → IState) (corners : Nat → IState) :
    edges_safe cs corners = true ↔ juEdgesSafe cs corners := by
  have he : cubeEdgeList =
      [(0,1),(0,2),(0,4),(1,3),(1,5),(2,3),(2,6),(3,7),(4,5),(4,6),(5,7),(6,7)] := by
    decide
  rw [juEdgesSafe, he]
  simp only [edges_safe, Bool.and_eq_true, Bool.or_eq_true, beq_iff_eq,
    List.mem_cons, List.not_mem_nil, or_false, forall_eq_or_imp, forall_eq,
    and_assoc]
  constructor
  · rintro ⟨h1, h2, h3, h4, h5, h6, h7, h8, h9, h10, h11, h12⟩
    exact ⟨h2, h3, h1, h4, h5, h6, h7, h8, h9, h10, h11, h12⟩
  · rintro ⟨g1, g2, g3, g4, g5, g6, g7, g8, g9, g10, g11, g12⟩
    exact ⟨g3, g1, g2, g4, g5, g6, g7, g8, g9, g10, g11, g12⟩

/-- The source's `faces_safe` conjunction enumerates exactly the Ju et
al. face condition over the 6 cube faces. -/
theorem faces_safe_iff (cs : Nat → Nat → IState) (corners : Nat → IState) :
    faces_safe cs corners = true ↔ juFacesSafe cs corners := by
  have hf : cubeFaceList = [(0,3),(0,5),(0,6),(7,1),(7,2),(7,4)] := by decide
  have h03 : faceCornerList 0 3 = [0,1,2,3] := by decide
  have h05 : faceCornerList 0 5 = [0,1,4,5] := by decide
  have h06 : faceCornerList 0 6 = [0,2,4,6] := by decide
  have h71 : faceCornerList 7 1 = [1,3,5,7] := by decide
  have h72 : faceCornerList 7 2 = [2,3,6,7] := by decide
  have h74 : faceCornerList 7 4 = [4,5,6,7] := by decide
  rw [juFacesSafe, hf]
  simp only [h03, h05, h06, h71, h72, h74,
    faces_safe, Bool.and_eq_true, Bool.or_eq_true, beq_iff_eq,
    List.mem_cons, List.not_mem_nil, or_false, forall_eq_or_imp, forall_eq,
    exists_eq_or_imp, exists_eq_left, exists_false, and_assoc, or_assoc]
  constructor
  · rintro ⟨h1, h2, h3, h4, h5, h6⟩
    exact ⟨or4_swap23 h3, h1, h2, or4_swap23 h4, or4_swap23 h5, or4_swap23 h6⟩
  · rintro ⟨g1, g2, g3, g4, g5, g6⟩
    exact ⟨g2, g3, or4_swap23 g1, or4_swap23 g4, or4_swap23 g5, or4_swap23 g6⟩

/-- The source's `center_safe` disjunction is exactly the Ju et al.
centre condition over the 8 cube corners. -/
theorem center_safe_iff (cs : Nat → Nat → IState) (corners : Nat → IState) :
    center_safe cs corners = true ↔ juCenterSafe cs corners := by
  have hr : List.range 8 = [0,1,2,3,4,5,6,7] := by decide
  rw [juCenterSafe, hr]
  simp only [center_safe, Bool.or_eq_true, beq_iff_eq,
    List.mem_cons, List.not_mem_nil, or_false,
    exists_eq_or_imp, exists_eq_left, exists_false, or_assoc]

/-- C3: `DCTree<3>::leafsAreManifold(cs, corners)` returns true if and
only if all three Ju et al. sign-consistency conditions hold: for each
of the 12 coarse edges, the sign at the edge midpoint (read as the
appropriate child's `cornerState`) equals the sign at one of the edge's
two endpoints; for each of the 6 coarse faces, the sign at the face
midpoint equals the sign at one of the face's four corners; and the
sign at the cube centre equals the sign at one of the cube's eight
corners. -/
theorem leafsAreManifold_iff_ju (cs : Nat → Nat → IState)
    (corners : Nat → IState) :
    leafsAreManifold cs corners = true ↔
      juEdgesSafe cs corners ∧ juFacesSafe cs corners ∧
        juCenterSafe cs corners := by
  rw [leafsAreManifold, Bool.and_eq_true, Bool.and_eq_true]
  rw [edges_safe_iff, faces_safe_iff, center_safe_iff, and_assoc]

end Libfive

namespace Libfive

/-- C5 counterexample: pushing a degenerate sample (zero gradient, so
`‖n‖ = 0 ≤ 1e-12`) onto a fresh `Intersection<3>` is *not* a no-op: the
`mass_point` accumulator still gains `(pos, 1)` — its weight goes from
`0` to `1` — because the source adds `mp` to `mass_point` before the
degeneracy check.  Instantiated over `ℚ` with `Rat.sqrt` for the
machine square root. -/
theorem push_degenerate_changes_mass_point :
    ((Intersection.init ℚ 3).push Rat.sqrt (fun _ => 1) (fun _ => 0)
        0).mass_point_w ≠ (Intersection.init ℚ 3).mass_point_w := by
  have h : derivNorm Rat.sqrt (fun _ : Fin 3 => (0 : ℚ)) ≤ 1e-12 := by
    have h0 : derivNorm Rat.sqrt (fun _ : Fin 3 => (0 : ℚ)) = Rat.sqrt 0 := by
      simp [derivNorm]
    rw [h0]
    have := Rat.sqrt_eq (0 : ℚ)
    simp only [mul_zero, abs_zero] at this
    rw [this]
    norm_num
  simp only [Intersection.push, Intersection.init, if_pos h]
  norm_num

/-- C5 amended: a `push` whose gradient is degenerate (`‖n‖ ≤ 1e-12`)
leaves `AtA`, `AtB`, `BtB` and the cached rank unchanged, but still
accumulates the sample's position into `mass_point`:
`mass_point += (pos, 1)`. -/
theorem push_degenerate (K : Type) [LinearOrderedField K] (sqrt : K → K)
    (N : Nat) (s : Intersection K N) (pos deriv : Fin N → K) (value : K)
    (h : derivNorm sqrt deriv ≤ 1e-12) :
    (s.push sqrt pos deriv value).AtA = s.AtA ∧
    (s.push sqrt pos deriv value).AtB = s.AtB ∧
    (s.push sqrt pos deriv value).BtB = s.BtB ∧
    (s.push sqrt pos deriv value).rank = s.rank ∧
    (s.push sqrt pos deriv value).mass_point_pos
      = (fun i => s.mass_point_pos i + pos i) ∧
    (s.push sqrt pos deriv value).mass_point_w = s.mass_point_w + 1 := by
  simp [Intersection.push, if_pos h]

/-- C5 witness: the amended theorem applied at the concrete degenerate
sample used in the counterexample. -/
theorem push_degenerate_witness :
    ((Intersection.init ℚ 3).push Rat.sqrt (fun _ => 1) (fun _ => 0)
        0).BtB = (Intersection.init ℚ 3).BtB :=
  (push_degenerate ℚ Rat.sqrt 3 (Intersection.init ℚ 3)
    (fun _ => 1) (fun _ => 0) 0 (by
      have h0 : derivNorm Rat.sqrt (fun _ : Fin 3 => (0 : ℚ)) = Rat.sqrt 0 := by
        simp [derivNorm]
      rw [h0]
      have := Rat.sqrt_eq (0 : ℚ)
      simp only [mul_zero, abs_zero] at this
      rw [this]
      norm_num)).2.2.1

/-- C6: `DCMesher::load<A>(ts)` pushes nothing to the per-thread BRep —
for *any* behaviour `loadAD` of the polarity helper `load<A, D>`, which
is where all BRep writes happen — when some cell's type is not
`AMBIGUOUS`, or when the two endpoints of the axis-`A` edge of the
smallest cell among the four (the first cell of minimal `leaf->level`,
as selected by `std::min_element`) have equal corner state. -/
theorem loadA_early_exit {σ : Type} (A : Axis3)
    (loadAD : Bool → (Fin 4 → DCCell) → σ → σ)
    (ts : Fin 4 → DCCell) (m : σ)
    (h : (∃ i, (ts i).type ≠ IState.AMBIGUOUS) ∨
      (ts (minLevelIndex ts)).cornerState (loadCorners A (minLevelIndex ts))
        = (ts (minLevelIndex ts)).cornerState
            (loadCorners A (minLevelIndex ts) ||| A.mask)) :
    loadA A loadAD ts m = m := by
  rcases h with ⟨i, hi⟩ | hab
  · have hany : (List.finRange 4).any
        (fun i => (ts i).type != IState.AMBIGUOUS) = true := by
      simp only [List.any_eq_true]
      exact ⟨i, List.mem_finRange i, bne_iff_ne.mpr hi⟩
    simp [loadA, hany]
  · simp only [loadA]
    split
    · rfl
    · rw [if_neg]
      simp [hab]

/-- C6 witness: the theorem applied to four `EMPTY` cells (and a
`loadAD` that would overwrite the BRep state if it were reached). -/
theorem loadA_early_exit_witness :
    loadA Axis3.X (fun _ _ _ => (1 : Nat))
      (fun _ => ⟨IState.EMPTY, 0, fun _ => IState.EMPTY⟩) 0 = 0 :=
  loadA_early_exit Axis3.X (fun _ _ _ => (1 : Nat))
    (fun _ => ⟨IState.EMPTY, 0, fun _ => IState.EMPTY⟩) 0
    (Or.inl ⟨0, by decide⟩)

end Libfive

namespace Libfive

/-- C8: modelling the atomics by the values observed at the checks: if
the cancel flag is set, `WorkerPool::build` returns an empty `Root` and
`Mesh::render` returns a null mesh; and whenever a progress handler is
supplied, `finish()` runs exactly once per `Mesh::render` call, on the
cancelled and the successful path alike. -/
theorem render_cancel_null_and_finish_once {Tree M : Type} (alg : Alg)
    (hasHandler cancel : Bool) (root : Option Tree) (out : Tree)
    (walkOut : M) :
    (cancel = true → workerPoolBuildResult cancel out = none) ∧
    (cancel = true → (meshRender alg hasHandler cancel root walkOut).1 = none) ∧
    (hasHandler = true → (meshRender alg hasHandler cancel root walkOut).2 = 1) := by
  refine ⟨fun hc => ?_, fun hc => ?_, fun hh => ?_⟩
  · simp [workerPoolBuildResult, hc]
  · cases alg <;> simp [meshRender, hc]
  · cases alg <;> simp only [meshRender, hh] <;> split <;> rfl

/-- C8 witness: the theorem applied at a concrete cancelled render with
a progress handler. -/
theorem render_cancel_null_and_finish_once_witness :
    workerPoolBuildResult true () = (none : Option Unit) ∧
    (meshRender Alg.DUAL_CONTOURING true true (none : Option Unit) ()).1
      = none ∧
    (meshRender Alg.DUAL_CONTOURING true true (none : Option Unit) ()).2
      = 1 := by
  obtain ⟨h1, h2, h3⟩ := render_cancel_null_and_finish_once
    Alg.DUAL_CONTOURING true true (none : Option Unit) () ()
  exact ⟨h1 rfl, h2 rfl, h3 rfl⟩

/-- The indices returned by a sequence of `pushVertex` calls are the
consecutive counter values, and the counter advances by one per call. -/
theorem runPushes_returns {T : Nat} (trace : List (Fin T × Vec3))
    (s : MeshState T) :
    (runPushes trace s).2 = List.range' s.counter trace.length ∧
    (runPushes trace s).1.counter = s.counter + trace.length := by
  induction trace generalizing s with
  | nil => simp [runPushes]
  | cons e rest ih =>
    obtain ⟨t, v⟩ := e
    have h := ih (pushVertex t v s).2
    refine ⟨?_, ?_⟩
    · show (pushVertex t v s).1 :: (runPushes rest (pushVertex t v s).2).2
          = List.range' s.counter (rest.length + 1)
      rw [List.range'_succ, h.1]
      rfl
    · show (runPushes rest (pushVertex t v s).2).1.counter
          = s.counter + (rest.length + 1)
      rw [h.2]
      show s.counter + 1 + rest.length = s.counter + (rest.length + 1)
      omega

/-- Effect of a sequence of `pushVertex` calls on one thread's brep:
`verts` gains the thread's payloads, `indices` gains the counter values
handed to the thread's calls, and `branes` is untouched. -/
theorem runPushes_breps {T : Nat} (trace : List (Fin T × Vec3))
    (s : MeshState T) (t : Fin T) :
    ((runPushes trace s).1.breps t).verts
        = (s.breps t).verts ++ (threadContrib t s.counter trace).2 ∧
    ((runPushes trace s).1.breps t).indices
        = (s.breps t).indices ++ (threadContrib t s.counter trace).1 ∧
    ((runPushes trace s).1.breps t).branes = (s.breps t).branes := by
  induction trace generalizing s with
  | nil => simp [runPushes, threadContrib]
  | cons e rest ih =>
    obtain ⟨u, v⟩ := e
    have h := ih (pushVertex u v s).2
    have hc : (pushVertex u v s).2.counter = s.counter + 1 := rfl
    rw [hc] at h
    by_cases hu : u = t
    · subst hu
      have hb : (pushVertex u v s).2.breps u = (s.breps u).pushed v s.counter :=
        Function.update_same u _ s.breps
      rw [hb] at h
      refine ⟨?_, ?_, ?_⟩
      · show ((runPushes rest (pushVertex u v s).2).1.breps u).verts = _
        rw [h.1]
        simp [PTBrep.pushed, threadContrib]
      · show ((runPushes rest (pushVertex u v s).2).1.breps u).indices = _
        rw [h.2.1]
        simp [PTBrep.pushed, threadContrib]
      · show ((runPushes rest (pushVertex u v s).2).1.breps u).branes = _
        rw [h.2.2]
        simp [PTBrep.pushed]
    · have hb : (pushVertex u v s).2.breps t = s.breps t :=
        Function.update_noteq (fun hne => hu hne.symm) _ s.breps
      rw [hb] at h
      refine ⟨?_, ?_, ?_⟩
      · show ((runPushes rest (pushVertex u v s).2).1.breps t).verts = _
        rw [h.1]
        simp [threadContrib, hu]
      · show ((runPushes rest (pushVertex u v s).2).1.breps t).indices = _
        rw [h.2.1]
        simp [threadContrib, hu]
      · exact h.2.2

/-- The two components of `threadContrib` always have the same length. -/
theorem threadContrib_length {T : Nat} (t : Fin T) (c : Nat)
    (trace : List (Fin T × Vec3)) :
    (threadContrib t c trace).1.length = (threadContrib t c trace).2.length := by
  induction trace generalizing c with
  | nil => rfl
  | cons e rest ih =>
    obtain ⟨u, v⟩ := e
    by_cases hu : u = t <;> simp [threadContrib, hu, ih]

/-- C10: for every sequential interleaving of `pushVertex` calls across
the `PerThreadBRep`s sharing one atomic counter seeded at `1`, the k-th
call overall returns index `k` — the returned indices are exactly
`1..K`, consecutive with no gaps — and within each brep `indices` and
`verts` grow in lockstep: `indices` holds exactly the values returned by
the calls that appended the corresponding entries of `verts`, in order,
so `indices.size() == verts.size()` throughout. -/
theorem pushVertex_interleaving (T : Nat) (trace : List (Fin T × Vec3)) :
    (runPushes trace (MeshState.init T)).2 = List.range' 1 trace.length ∧
    ∀ t : Fin T,
      ((runPushes trace (MeshState.init T)).1.breps t).indices
          = (threadContrib t 1 trace).1 ∧
      ((runPushes trace (MeshState.init T)).1.breps t).verts
          = (threadContrib t 1 trace).2 ∧
      ((runPushes trace (MeshState.init T)).1.breps t).indices.length
          = ((runPushes trace (MeshState.init T)).1.breps t).verts.length := by
  refine ⟨(runPushes_returns trace (MeshState.init T)).1, fun t => ?_⟩
  have h := runPushes_breps trace (MeshState.init T) t
  have hi : ((runPushes trace (MeshState.init T)).1.breps t).indices
      = (threadContrib t 1 trace).1 := by
    rw [h.2.1]; rfl
  have hv : ((runPushes trace (MeshState.init T)).1.breps t).verts
      = (threadContrib t 1 trace).2 := by
    rw [h.1]; rfl
  refine ⟨hi, hv, ?_⟩
  rw [hi, hv]
  exact threadContrib_length t 1 trace

end Libfive

namespace Libfive

/-- `writeSlice` preserves the buffer length. -/
theorem writeSlice_length {α : Type} (l : List α) (acc : List α) (off : Nat) :
    (writeSlice acc off l).length = acc.length := by
  induction l generalizing acc off with
  | nil => rfl
  | cons x xs ih => simp [writeSlice, ih, List.length_set]

/-- An in-bounds `writeSlice` replaces the slice `[off, off + l.length)`
of the buffer with `l`. -/
theorem writeSlice_eq {α : Type} (l : List α) (acc : List α) (off : Nat)
    (h : off + l.length ≤ acc.length) :
    writeSlice acc off l = acc.take off ++ l ++ acc.drop (off + l.length) := by
  induction l generalizing acc off with
  | nil => simp [writeSlice]
  | cons x xs ih =>
    have hoff : off < acc.length := by
      simp only [List.length_cons] at h
      omega
    have h' : (off + 1) + xs.length ≤ (acc.set off x).length := by
      simp only [List.length_set, List.length_cons] at h ⊢
      omega
    rw [writeSlice, ih _ _ h', List.set_eq_take_cons_drop x hoff]
    have hlt : (acc.take off).length = off := by
      rw [List.length_take]
      omega
    rw [List.take_append_eq_append_take, List.drop_append_eq_append_drop, hlt]
    rw [List.take_take, min_eq_right (Nat.le_succ off)]
    rw [List.drop_eq_nil_of_le
      (by rw [hlt]; omega : (acc.take off).length ≤ off + 1 + xs.length)]
    have h2 : off + 1 + xs.length - off = xs.length + 1 := by omega
    rw [h2, List.drop_succ_cons, List.drop_drop]
    have h4 : off + 1 - off = 1 := by omega
    rw [h4]
    have h5 : off + (x :: xs).length = off + 1 + xs.length := by
      simp only [List.length_cons]
      omega
    rw [h5]
    simp

/-- Scattering a list of slices at consecutive prefix-sum offsets into a
buffer of exactly the remaining size concatenates them. -/
theorem scatterFrom_eq_append {α : Type} (ls : List (List α)) (acc : List α)
    (off : Nat) (h : acc.length = off + (ls.map List.length).sum) :
    scatterFrom acc off ls = acc.take off ++ ls.flatten := by
  induction ls generalizing acc off with
  | nil =>
    simp only [List.map_nil, List.sum_nil, Nat.add_zero] at h
    show acc = acc.take off ++ List.flatten []
    rw [List.take_of_length_le (le_of_eq h)]
    simp
  | cons l rest ih =>
    have hle : off + l.length ≤ acc.length := by
      simp only [List.map_cons, List.sum_cons] at h
      omega
    have h2 : (writeSlice acc off l).length
        = (off + l.length) + (rest.map List.length).sum := by
      rw [writeSlice_length]
      simp only [List.map_cons, List.sum_cons] at h
      omega
    rw [scatterFrom, ih _ _ h2, writeSlice_eq _ _ _ hle]
    rw [List.take_append_eq_append_take]
    have hlt : (acc.take off).length = off := by
      rw [List.length_take]
      omega
    have hl2 : (acc.take off ++ l).length = off + l.length := by
      simp [hlt]
    rw [List.take_of_length_le (le_of_eq hl2), hl2, Nat.sub_self, List.take_zero]
    simp

/-- The `branes` side of `collect` is exactly the concatenation of the
children's `branes` arrays in child order. -/
theorem collectBranes_eq_flatten (children : List PTBrep) :
    collectBranes children = (children.map (fun c => c.branes)).flatten := by
  unfold collectBranes
  rw [scatterFrom_eq_append]
  · simp
  · simp only [List.length_replicate, totalBranes, List.map_map]
    simp [Function.comp_def]

/-- Scatter-writing index/value pairs preserves the buffer length. -/
theorem scatterPairsG_length {α : Type} (ps : List (Nat × α)) :
    ∀ acc : List α,
      (ps.foldl (fun a p => a.set p.1 p.2) acc).length = acc.length := by
  induction ps with
  | nil => intro acc; rfl
  | cons p rest ih =>
    intro acc
    show (rest.foldl _ (acc.set p.1 p.2)).length = acc.length
    rw [ih, List.length_set]

/-- A slot none of the pairs writes keeps its original value. -/
theorem scatterPairsG_getD_of_not_mem {α : Type} (ps : List (Nat × α))
    (i : Nat) (d : α) :
    ∀ acc : List α, (∀ p ∈ ps, p.1 ≠ i) →
      (ps.foldl (fun a p => a.set p.1 p.2) acc).getD i d = acc.getD i d := by
  induction ps with
  | nil => intro acc _; rfl
  | cons p rest ih =>
    intro acc h
    show (rest.foldl _ (acc.set p.1 p.2)).getD i d = acc.getD i d
    rw [ih _ (fun q hq => h q (List.mem_cons_of_mem _ hq))]
    rw [List.getD_eq_getElem?_getD, List.getD_eq_getElem?_getD,
      List.getElem?_set_ne (h p (List.mem_cons_self _ _))]

/-- When the written indices are pairwise distinct, every written slot
holds its pair's value. -/
theorem scatterPairsG_getD_of_mem {α : Type} (ps : List (Nat × α))
    (i : Nat) (v : α) (d : α) :
    ∀ acc : List α, (ps.map Prod.fst).Nodup → (i, v) ∈ ps →
      i < acc.length →
      (ps.foldl (fun a p => a.set p.1 p.2) acc).getD i d = v := by
  induction ps with
  | nil => intro acc _ hmem _; cases hmem
  | cons p rest ih =>
    intro acc hnd hmem hi
    show (rest.foldl _ (acc.set p.1 p.2)).getD i d = v
    rcases List.mem_cons.mp hmem with heq | hmem'
    · have hfst : p.1 ∉ rest.map Prod.fst := (List.nodup_cons.mp hnd).1
      subst heq
      have hni : ∀ q ∈ rest, q.1 ≠ i := by
        intro q hq hqi
        have hq2 : q.1 ∈ rest.map Prod.fst := List.mem_map_of_mem Prod.fst hq
        rw [hqi] at hq2
        exact hfst hq2
      rw [scatterPairsG_getD_of_not_mem rest i d _ hni]
      rw [List.getD_eq_getElem?_getD, List.getElem?_set_self hi]
      rfl
    · exact ih (acc.set p.1 p.2) (List.nodup_cons.mp hnd).2 hmem'
        (by rw [List.length_set]; exact hi)

/-- The per-child scatter loops of `collect` amount to one scatter over
the concatenation of all children's index/vertex pairs. -/
theorem collectVerts_eq_scatter (children : List PTBrep) :
    collectVerts children
      = ((children.map childPairs).flatten).foldl (fun a p => a.set p.1 p.2)
          (List.replicate (1 + totalVerts children) Vec3.zero) := by
  unfold collectVerts scatterPairs
  generalize (List.replicate (1 + totalVerts children) Vec3.zero) = acc
  induction children generalizing acc with
  | nil => rfl
  | cons c rest ih =>
    show rest.foldl _ (List.foldl _ acc (childPairs c)) = _
    rw [ih]
    show _ = (childPairs c ++ (rest.map childPairs).flatten).foldl _ acc
    rw [List.foldl_append]

/-- C7: after `BRep<3>::collect(children)` on a freshly-constructed
`BRep`, given children whose index lists are pairwise distinct and drawn
from `{1..Σ|verts_i|}` (each child's `indices` paired 1-1 with its
`verts`): `verts.size()` equals `1 + Σ|verts_i|`; `verts[0]` is the zero
sentinel; `verts[c.indices[k]] = c.verts[k]` for every child `c` and
local position `k`; and `branes` is exactly the concatenation of the
children's `branes` arrays in child order. -/
theorem collect_spec (children : List PTBrep)
    (hlen : ∀ c ∈ children, c.indices.length = c.verts.length)
    (hnd : ((children.map (fun c => c.indices)).flatten).Nodup)
    (hbound : ∀ i ∈ (children.map (fun c => c.indices)).flatten,
      1 ≤ i ∧ i ≤ totalVerts children) :
    (collect children).verts.length = 1 + totalVerts children ∧
    (collect children).verts.getD 0 Vec3.zero = Vec3.zero ∧
    (∀ c ∈ children, ∀ k, k < c.indices.length →
      (collect children).verts.getD (c.indices.getD k 0) Vec3.zero
        = c.verts.getD k Vec3.zero) ∧
    (collect children).branes = (children.map (fun c => c.branes)).flatten := by
  have F1 : ((children.map childPairs).flatten).map Prod.fst
      = (children.map (fun c => c.indices)).flatten := by
    rw [List.map_flatten, List.map_map]
    congr 1
    apply List.map_congr_left
    intro c hc
    show (childPairs c).map Prod.fst = c.indices
    unfold childPairs
    exact List.map_fst_zip c.indices c.verts (le_of_eq (hlen c hc))
  have hverts : (collect children).verts = collectVerts children := rfl
  refine ⟨?_, ?_, ?_, ?_⟩
  · rw [hverts, collectVerts_eq_scatter, scatterPairsG_length,
      List.length_replicate]
  · rw [hverts, collectVerts_eq_scatter]
    rw [scatterPairsG_getD_of_not_mem _ 0 Vec3.zero _ ?_]
    · rw [List.getD_eq_getElem?_getD, List.getElem?_replicate_of_lt (by omega)]
      rfl
    · intro p hp hp0
      have hm : p.1 ∈ ((children.map childPairs).flatten).map Prod.fst :=
        List.mem_map_of_mem Prod.fst hp
      rw [F1] at hm
      have := (hbound _ hm).1
      omega
  · intro c hc k hk
    have hkv : k < c.verts.length := by
      rw [← hlen c hc]
      exact hk
    have hkz : k < (c.indices.zip c.verts).length := by
      rw [List.length_zip]
      omega
    have h1 : c.indices.getD k 0 = c.indices[k] :=
      List.getD_eq_getElem c.indices 0 hk
    have h2 : c.verts.getD k Vec3.zero = c.verts[k] :=
      List.getD_eq_getElem c.verts Vec3.zero hkv
    have hmemz : (c.indices.getD k 0, c.verts.getD k Vec3.zero)
        ∈ childPairs c := by
      rw [h1, h2]
      have h3 : (c.indices.zip c.verts)[k] = (c.indices[k], c.verts[k]) :=
        List.getElem_zip
      rw [← h3]
      exact List.getElem_mem hkz
    have hmem : (c.indices.getD k 0, c.verts.getD k Vec3.zero)
        ∈ (children.map childPairs).flatten :=
      List.mem_flatten_of_mem (List.mem_map_of_mem childPairs hc) hmemz
    have hidx : c.indices.getD k 0
        ∈ (children.map (fun c => c.indices)).flatten := by
      rw [← F1]
      exact List.mem_map_of_mem Prod.fst hmem
    have hb := hbound _ hidx
    rw [hverts, collectVerts_eq_scatter]
    exact scatterPairsG_getD_of_mem _ _ _ _ _ (by rw [F1]; exact hnd) hmem
      (by rw [List.length_replicate]; omega)
  · exact collectBranes_eq_flatten children

end Libfive

namespace Libfive

/-- Unfolding `pushVertex`'s state as an explicit record. -/
theorem pushVertex_eq {T : Nat} (t : Fin T) (v : Vec3) (s : MeshState T) :
    pushVertex t v s = (s.counter,
      ⟨s.counter + 1,
       Function.update s.breps t ((s.breps t).pushed v s.counter),
       s.memo⟩) := rfl

/-- Unfolding `ensureIndex` on an unassigned slot. -/
theorem ensureIndex_eq_pos {T : Nat} (t : Fin T) (slot : Nat) (v : Vec3)
    (s : MeshState T) (h0 : s.memo slot = 0) :
    ensureIndex t slot v s
      = ⟨s.counter + 1,
         Function.update s.breps t ((s.breps t).pushed v s.counter),
         Function.update s.memo slot s.counter⟩ := by
  unfold ensureIndex
  rw [if_pos h0]
  rfl

/-- Unfolding `ensureIndex` on an already-assigned slot. -/
theorem ensureIndex_eq_neg {T : Nat} (t : Fin T) (slot : Nat) (v : Vec3)
    (s : MeshState T) (h0 : ¬ s.memo slot = 0) :
    ensureIndex t slot v s = s := by
  unfold ensureIndex
  rw [if_neg h0]

/-- `sumVerts` reads only the brep array. -/
theorem sumVerts_mk {T : Nat} (c : Nat) (b : Fin T → PTBrep) (m : Nat → Nat) :
    sumVerts (⟨c, b, m⟩ : MeshState T) = ∑ t, (b t).verts.length := rfl

/-- Updating one brep with one more vertex adds one to the total. -/
theorem sumVerts_update_pushed {T : Nat} (s : MeshState T) (t : Fin T)
    (v : Vec3) (i : Nat) :
    (∑ u, ((Function.update s.breps t ((s.breps t).pushed v i)) u).verts.length)
      = sumVerts s + 1 := by
  have hp : ∀ u, ((Function.update s.breps t
        ((s.breps t).pushed v i)) u).verts.length
      = Function.update (fun u => (s.breps u).verts.length) t
          ((s.breps t).verts.length + 1) u := by
    intro u
    by_cases h : u = t
    · subst h
      simp [PTBrep.pushed]
    · simp [Function.update_noteq h]
  rw [Finset.sum_congr rfl (fun u _ => hp u)]
  rw [Finset.sum_update_of_mem (Finset.mem_univ t),
    Finset.sdiff_singleton_eq_erase]
  have h2 : (s.breps t).verts.length
      + ∑ x ∈ Finset.univ.erase t, (s.breps x).verts.length
      = ∑ x, (s.breps x).verts.length :=
    Finset.add_sum_erase Finset.univ (fun u => (s.breps u).verts.length)
      (Finset.mem_univ t)
  show (s.breps t).verts.length + 1
      + ∑ x ∈ Finset.univ.erase t, (s.breps x).verts.length
      = sumVerts s + 1
  unfold sumVerts
  omega

/-- Updating one brep with one more triangle leaves the vertex total
unchanged. -/
theorem sumVerts_update_brane {T : Nat} (s : MeshState T) (t : Fin T)
    (tri : Nat × Nat × Nat) :
    (∑ u, ((Function.update s.breps t ((s.breps t).brane tri)) u).verts.length)
      = sumVerts s := by
  unfold sumVerts
  apply Finset.sum_congr rfl
  intro u _
  by_cases h : u = t
  · subst h
    simp [PTBrep.brane]
  · simp [Function.update_noteq h]

/-- `ensureIndex` preserves the invariant, only grows the counter,
leaves all triangle lists unchanged, and leaves the target slot holding
an already-issued (nonzero) index. -/
theorem ensureIndex_inv {T : Nat} (t : Fin T) (slot : Nat) (v : Vec3)
    (s : MeshState T) (h : MInv s) :
    MInv (ensureIndex t slot v s) ∧
    s.counter ≤ (ensureIndex t slot v s).counter ∧
    (∀ u, ((ensureIndex t slot v s).breps u).branes = (s.breps u).branes) ∧
    (1 ≤ (ensureIndex t slot v s).memo slot ∧
      (ensureIndex t slot v s).memo slot < (ensureIndex t slot v s).counter) := by
  obtain ⟨hc, hm, hb⟩ := h
  by_cases h0 : s.memo slot = 0
  · rw [ensureIndex_eq_pos t slot v s h0]
    refine ⟨⟨?_, ?_, ?_⟩, ?_, ?_, ?_⟩
    · show s.counter + 1 = 1 + sumVerts _
      rw [sumVerts_mk, sumVerts_update_pushed]
      omega
    · intro slot2
      show Function.update s.memo slot s.counter slot2 = 0 ∨
        (1 ≤ Function.update s.memo slot s.counter slot2 ∧
          Function.update s.memo slot s.counter slot2 < s.counter + 1)
      by_cases hss : slot2 = slot
      · subst hss
        rw [Function.update_same]
        right
        exact ⟨by omega, by omega⟩
      · rw [Function.update_noteq hss]
        rcases hm slot2 with h1 | h1
        · exact Or.inl h1
        · exact Or.inr ⟨h1.1, by omega⟩
    · intro u tri htri
      show triOK tri (s.counter + 1)
      have hu : ((Function.update s.breps t
          ((s.breps t).pushed v s.counter)) u).branes = (s.breps u).branes := by
        by_cases h : u = t
        · subst h
          simp [PTBrep.pushed]
        · simp [Function.update_noteq h]
      rw [hu] at htri
      have := hb u tri htri
      unfold triOK at this ⊢
      omega
    · show s.counter ≤ s.counter + 1
      omega
    · intro u
      show ((Function.update s.breps t
          ((s.breps t).pushed v s.counter)) u).branes = (s.breps u).branes
      by_cases h : u = t
      · subst h
        simp [PTBrep.pushed]
      · simp [Function.update_noteq h]
    · show 1 ≤ Function.update s.memo slot s.counter slot ∧
        Function.update s.memo slot s.counter slot < s.counter + 1
      rw [Function.update_same]
      exact ⟨by omega, by omega⟩
  · rw [ensureIndex_eq_neg t slot v s h0]
    rcases hm slot with h1 | h1
    · exact absurd h1 h0
    · exact ⟨⟨hc, hm, hb⟩, le_refl _, fun u => rfl, h1⟩

/-- `pushTriangle` with already-issued indices preserves the invariant
and the counter. -/
theorem pushTriangle_inv {T : Nat} (t : Fin T) (a b c : Nat)
    (s : MeshState T) (h : MInv s)
    (habc : (1 ≤ a ∧ a < s.counter) ∧ (1 ≤ b ∧ b < s.counter) ∧
      (1 ≤ c ∧ c < s.counter)) :
    MInv (pushTriangle t a b c s) ∧
    (pushTriangle t a b c s).counter = s.counter := by
  obtain ⟨hc, hm, hb⟩ := h
  unfold pushTriangle
  split
  · refine ⟨⟨?_, hm, ?_⟩, rfl⟩
    · show s.counter = 1 + sumVerts
        (⟨s.counter, Function.update s.breps t ((s.breps t).brane (a, b, c)),
          s.memo⟩ : MeshState T)
      rw [sumVerts_mk, sumVerts_update_brane]
      exact hc
    · intro u tri htri
      show triOK tri s.counter
      dsimp only at htri
      by_cases hu : u = t
      · subst hu
        rw [show ((Function.update s.breps u ((s.breps u).brane (a, b, c))) u)
            = (s.breps u).brane (a, b, c) from Function.update_same u _ _] at htri
        unfold PTBrep.brane at htri
        simp only [List.mem_append, List.mem_singleton] at htri
        rcases htri with htri | htri
        · exact hb u tri htri
        · subst htri
          exact ⟨habc.1, habc.2.1, habc.2.2⟩
      · rw [show ((Function.update s.breps t ((s.breps t).brane (a, b, c))) u)
            = s.breps u from Function.update_noteq hu _ _] at htri
        exact hb u tri htri
  · exact ⟨⟨hc, hm, hb⟩, rfl⟩

end Libfive

namespace Libfive

/-- One `load<A, D>` call preserves the meshing-pass invariant: the four
vertex indices it reads are valid at read time and remain valid as the
counter grows, so both emitted triangles refer to issued indices. -/
theorem loadADStep_inv {T : Nat} (t : Fin T) (slots : Fin 4 → Nat)
    (vsIn : Fin 4 → Vec3) (D diag : Bool) (s : MeshState T) (h : MInv s) :
    MInv (loadADStep t slots vsIn D diag s) := by
  simp only [loadADStep]
  set s0 := ensureIndex t (slots 0) (vsIn 0) s with hs0
  set s1 := ensureIndex t (slots 1) (vsIn 1) s0 with hs1
  set s2 := ensureIndex t (slots 2) (vsIn 2) s1 with hs2
  set s3 := ensureIndex t (slots 3) (vsIn 3) s2 with hs3
  have H0 : MInv s0 ∧ s.counter ≤ s0.counter ∧
      (∀ u, (s0.breps u).branes = (s.breps u).branes) ∧
      (1 ≤ s0.memo (slots 0) ∧ s0.memo (slots 0) < s0.counter) :=
    ensureIndex_inv t (slots 0) (vsIn 0) s h
  have H1 : MInv s1 ∧ s0.counter ≤ s1.counter ∧
      (∀ u, (s1.breps u).branes = (s0.breps u).branes) ∧
      (1 ≤ s1.memo (slots 1) ∧ s1.memo (slots 1) < s1.counter) :=
    ensureIndex_inv t (slots 1) (vsIn 1) s0 H0.1
  have H2 : MInv s2 ∧ s1.counter ≤ s2.counter ∧
      (∀ u, (s2.breps u).branes = (s1.breps u).branes) ∧
      (1 ≤ s2.memo (slots 2) ∧ s2.memo (slots 2) < s2.counter) :=
    ensureIndex_inv t (slots 2) (vsIn 2) s1 H1.1
  have H3 : MInv s3 ∧ s2.counter ≤ s3.counter ∧
      (∀ u, (s3.breps u).branes = (s2.breps u).branes) ∧
      (1 ≤ s3.memo (slots 3) ∧ s3.memo (slots 3) < s3.counter) :=
    ensureIndex_inv t (slots 3) (vsIn 3) s2 H2.1
  have hmono01 : s0.counter ≤ s1.counter := H1.2.1
  have hmono12 : s1.counter ≤ s2.counter := H2.2.1
  have hmono23 : s2.counter ≤ s3.counter := H3.2.1
  have hv0 : 1 ≤ s0.memo (slots 0) ∧ s0.memo (slots 0) < s3.counter :=
    ⟨H0.2.2.2.1, by have := H0.2.2.2.2; omega⟩
  have hv1 : 1 ≤ s1.memo (slots 1) ∧ s1.memo (slots 1) < s3.counter :=
    ⟨H1.2.2.2.1, by have := H1.2.2.2.2; omega⟩
  have hv2 : 1 ≤ s2.memo (slots 2) ∧ s2.memo (slots 2) < s3.counter :=
    ⟨H2.2.2.2.1, by have := H2.2.2.2.2; omega⟩
  have hv3 : 1 ≤ s3.memo (slots 3) ∧ s3.memo (slots 3) < s3.counter :=
    ⟨H3.2.2.2.1, H3.2.2.2.2⟩
  have hw1 : 1 ≤ (if D then s1.memo (slots 1) else s2.memo (slots 2)) ∧
      (if D then s1.memo (slots 1) else s2.memo (slots 2)) < s3.counter := by
    cases D
    · simpa using hv2
    · simpa using hv1
  have hw2 : 1 ≤ (if D then s2.memo (slots 2) else s1.memo (slots 1)) ∧
      (if D then s2.memo (slots 2) else s1.memo (slots 1)) < s3.counter := by
    cases D
    · simpa using hv1
    · simpa using hv2
  split
  · have Hin := pushTriangle_inv t (s0.memo (slots 0))
      (if D then s1.memo (slots 1) else s2.memo (slots 2))
      (if D then s2.memo (slots 2) else s1.memo (slots 1)) s3 H3.1
      ⟨hv0, hw1, hw2⟩
    have Hout := pushTriangle_inv t
      (if D then s2.memo (slots 2) else s1.memo (slots 1))
      (if D then s1.memo (slots 1) else s2.memo (slots 2))
      (s3.memo (slots 3)) _ Hin.1
      (by rw [Hin.2]; exact ⟨hw2, hw1, hv3⟩)
    exact Hout.1
  · have Hin := pushTriangle_inv t (s0.memo (slots 0))
      (if D then s1.memo (slots 1) else s2.memo (slots 2))
      (s3.memo (slots 3)) s3 H3.1
      ⟨hv0, hw1, hv3⟩
    have Hout := pushTriangle_inv t (s0.memo (slots 0))
      (s3.memo (slots 3))
      (if D then s2.memo (slots 2) else s1.memo (slots 1)) _ Hin.1
      (by rw [Hin.2]; exact ⟨hv0, hv3, hw2⟩)
    exact Hout.1

/-- The invariant holds at the start of a meshing pass. -/
theorem MInv_init (T : Nat) : MInv (MeshState.init T) := by
  refine ⟨?_, fun slot => Or.inl rfl, fun t tri htri => absurd htri
    (List.not_mem_nil tri)⟩
  show 1 = 1 + sumVerts (MeshState.init T)
  unfold sumVerts MeshState.init PTBrep.init
  simp

/-- Every interleaving of pipeline `load<A, D>` calls preserves the
invariant. -/
theorem runDC_inv {T : Nat} (trace : List (DCEvent T)) (s : MeshState T)
    (h : MInv s) : MInv (runDC trace s) := by
  induction trace generalizing s with
  | nil => exact h
  | cons e rest ih =>
    exact ih (loadADStep e.t e.slots e.vsIn e.D e.diag s)
      (loadADStep_inv e.t e.slots e.vsIn e.D e.diag s h)

/-- `collect` sizes its vertex array at `1 + Σ|verts_i|`
unconditionally. -/
theorem collect_verts_length (children : List PTBrep) :
    (collect children).verts.length = 1 + totalVerts children := by
  show (collectVerts children).length = _
  rw [collectVerts_eq_scatter, scatterPairsG_length, List.length_replicate]

/-- The total vertex count over the listed per-thread breps is
`sumVerts`. -/
theorem totalVerts_finRange {T : Nat} (s : MeshState T) :
    totalVerts ((List.finRange T).map s.breps) = sumVerts s := by
  unfold totalVerts sumVerts
  rw [List.map_map, Fin.sum_univ_def]
  simp [Function.comp_def]

end Libfive

namespace Libfive

/-- C1: for every mesh produced by the dual-contouring pipeline — a
sequential interleaving of `DCMesher::load<A, D>` calls pushing vertices
via `PerThreadBRep::pushVertex` with the shared counter seeded at `1`,
followed by `BRep::collect` merging the per-thread breps — every index
stored in `branes` is `≥ 1` and strictly less than `verts.size()`. -/
theorem dc_branes_index_validity (T : Nat) (trace : List (DCEvent T)) :
    ∀ tri ∈ (collect ((List.finRange T).map
        (runDC trace (MeshState.init T)).breps)).branes,
      (1 ≤ tri.1 ∧ tri.1 < (collect ((List.finRange T).map
          (runDC trace (MeshState.init T)).breps)).verts.length) ∧
      (1 ≤ tri.2.1 ∧ tri.2.1 < (collect ((List.finRange T).map
          (runDC trace (MeshState.init T)).breps)).verts.length) ∧
      (1 ≤ tri.2.2 ∧ tri.2.2 < (collect ((List.finRange T).map
          (runDC trace (MeshState.init T)).breps)).verts.length) := by
  intro tri htri
  set s := runDC trace (MeshState.init T) with hs
  have hinv := runDC_inv trace (MeshState.init T) (MInv_init T)
  rw [← hs] at hinv
  have hcnt : (collect ((List.finRange T).map s.breps)).verts.length
      = s.counter := by
    rw [collect_verts_length, totalVerts_finRange, ← hinv.1]
  have hbr : (collect ((List.finRange T).map s.breps)).branes
      = (((List.finRange T).map s.breps).map (fun c => c.branes)).flatten :=
    collectBranes_eq_flatten ((List.finRange T).map s.breps)
  rw [hbr] at htri
  obtain ⟨l, hl, htril⟩ := List.mem_flatten.mp htri
  obtain ⟨c, hc, rfl⟩ := List.mem_map.mp hl
  obtain ⟨t, _, rfl⟩ := List.mem_map.mp hc
  have hok := hinv.2.2 t tri htril
  unfold triOK at hok
  rw [hcnt]
  exact hok

/-- C1 witness: the theorem applied to a one-thread trace with a single
`load<A, D>` call on four fresh slots, whose first emitted triangle is
`(1, 2, 3)` in a collected mesh with five vertex slots. -/
theorem dc_branes_index_validity_witness :
    (1 ≤ (1, 2, 3).1 ∧ (1, 2, 3).1 < (collect ((List.finRange 1).map
        (runDC [⟨0, fun i => i.val, fun _ => Vec3.zero, true, true⟩]
          (MeshState.init 1)).breps)).verts.length) ∧
    (1 ≤ (1, 2, 3).2.1 ∧ (1, 2, 3).2.1 < (collect ((List.finRange 1).map
        (runDC [⟨0, fun i => i.val, fun _ => Vec3.zero, true, true⟩]
          (MeshState.init 1)).breps)).verts.length) ∧
    (1 ≤ (1, 2, 3).2.2 ∧ (1, 2, 3).2.2 < (collect ((List.finRange 1).map
        (runDC [⟨0, fun i => i.val, fun _ => Vec3.zero, true, true⟩]
          (MeshState.init 1)).breps)).verts.length) :=
  dc_branes_index_validity 1
    [⟨0, fun i => i.val, fun _ => Vec3.zero, true, true⟩] (1, 2, 3)
    (by decide)

end Libfive

namespace Libfive

/-- C7 witness: the theorem applied to two concrete children whose
indices `[2]` and `[1]` cover `{1, 2}`; the collected `branes` is the
concatenation of the children's triangle lists. -/
theorem collect_spec_witness :
    (collect [⟨[((1 : ℚ), (0 : ℚ), (0 : ℚ))], [(1, 2, 3)], [2]⟩,
              ⟨[((0 : ℚ), (1 : ℚ), (0 : ℚ))], [], [1]⟩]).branes
      = [(1, 2, 3)] := by
  have h := collect_spec
    [⟨[((1 : ℚ), (0 : ℚ), (0 : ℚ))], [(1, 2, 3)], [2]⟩,
     ⟨[((0 : ℚ), (1 : ℚ), (0 : ℚ))], [], [1]⟩]
    (by decide) (by decide) (by decide)
  rw [h.2.2.2]
  rfl

end Libfive
